import Mathlib

/-!
Verification of the go-bip39 repository: a shallow embedding of the
entropy <-> mnemonic codec, the seed derivation, the string normalizer
pipeline and the entropy-encryption helper, together with theorems
settling the specification claims about them.

Conventions of the embedding:
* Go `[]byte` is `List Nat`, each element a byte value (`< 256` where the
  program guarantees it).
* Go `string` is `GoStr := List Char`; UTF-8 byte conversion is explicit.
* Go `big.Int` values (always non-negative here) are `Nat`; `big.Int`
  operations `Mul/Or/And/Div/SetBytes/Bytes` become `*`, `|||`, `&&&`,
  `/`, `bytesToNat`, `natToBytes`.
* Go fallible functions return `Except GoErr`.
* Go `int` arithmetic in the size-table lookups is `Int` with Go's
  truncated division (`Int.div`), which is what the `/` in the source
  performs.
* External library collaborators: SHA-256, SHA-512, HMAC and PBKDF2 are
  implemented concretely below; the AES block cipher and the Unicode NFKD
  normalizer are passed in as explicit function parameters, since the
  program only composes them.
-/

/-- Go `string` modelled as a list of characters. -/
abbrev GoStr := List Char

/-- Convert a Lean string literal into the `GoStr` representation. -/
def gs (s : String) : GoStr := s.data

/-- Embedding of `big.Int.SetBytes`: interpret a big-endian byte slice as a number. -/
def bytesToNat (l : List Nat) : Nat :=
  l.foldl (fun acc b => acc * 256 + b) 0

/-- Fuelled worker for `natToBytes`. -/
def natToBytesAux : Nat → Nat → List Nat
  | 0, _ => []
  | fuel + 1, n =>
    if n = 0 then [] else natToBytesAux fuel (n / 256) ++ [n % 256]

/-- Embedding of `big.Int.Bytes`: the minimal big-endian byte representation of a
number (empty for zero). -/
def natToBytes (n : Nat) : List Nat := natToBytesAux (n + 1) n

/-- Embedding of `padByteSlice` from `src/v2/bip39.go`: left-pad a byte slice with
zero bytes to the requested size; a slice already at least that long is
returned unchanged. -/
def padByteSlice (slice : List Nat) (padToLen : Nat) : List Nat :=
  if padToLen ≤ slice.length then slice
  else List.replicate (padToLen - slice.length) 0 ++ slice

/-- Embedding of `binary.BigEndian.Uint16` on a two-byte slice. -/
def uint16BE (b : List Nat) : Nat := b.getD 0 0 * 256 + b.getD 1 0

/-! ### SHA-256 (the `crypto/sha256` collaborator, implemented per FIPS 180-4) -/

/-- Truncation to 32 bits. -/
def u32 (x : Nat) : Nat := x % 4294967296

/-- Right-rotation by `n` of a 32-bit value below `2^32`. -/
def rotr32 (n x : Nat) : Nat := x / 2 ^ n + x % 2 ^ n * 2 ^ (32 - n)

/-- The eight-word working state of a SHA-256 compression. -/
structure Sha256State where
  a : Nat
  b : Nat
  c : Nat
  d : Nat
  e : Nat
  f : Nat
  g : Nat
  h : Nat

/-- SHA-256 initial hash value. -/
def sha256Init : Sha256State :=
  ⟨1779033703, 3144134277, 1013904242, 2773480762,
   1359893119, 2600822924, 528734635, 1541459225⟩

/-- SHA-256 round constants. -/
def sha256K : List Nat :=
  [1116352408, 1899447441, 3049323471, 3921009573, 961987163, 1508970993,
   2453635748, 2870763221, 3624381080, 310598401, 607225278, 1426881987,
   1925078388, 2162078206, 2614888103, 3248222580, 3835390401, 4022224774,
   264347078, 604807628, 770255983, 1249150122, 1555081692, 1996064986,
   2554220882, 2821834349, 2952996808, 3210313671, 3336571891, 3584528711,
   113926993, 338241895, 666307205, 773529912, 1294757372, 1396182291,
   1695183700, 1986661051, 2177026350, 2456956037, 2730485921, 2820302411,
   3259730800, 3345764771, 3516065817, 3600352804, 4094571909, 275423344,
   430227734, 506948616, 659060556, 883997877, 958139571, 1322822218,
   1537002063, 1747873779, 1955562222, 2024104815, 2227730452, 2361852424,
   2428436474, 2756734187, 3204031479, 3329325298]

/-- Extend a sixteen-word SHA-256 message block to the 64-word schedule. -/
def sha256Extend (w : List Nat) : Nat → List Nat
  | 0 => w
  | t + 1 =>
    let w := sha256Extend w t
    let i := w.length
    let w15 := w.getD (i - 15) 0
    let w2 := w.getD (i - 2) 0
    let s0 := rotr32 7 w15 ^^^ rotr32 18 w15 ^^^ w15 / 2 ^ 3
    let s1 := rotr32 17 w2 ^^^ rotr32 19 w2 ^^^ w2 / 2 ^ 10
    w ++ [u32 (w.getD (i - 16) 0 + s0 + w.getD (i - 7) 0 + s1)]

/-- One SHA-256 compression round. -/
def sha256Round (st : Sha256State) (kw : Nat) : Sha256State :=
  let S1 := rotr32 6 st.e ^^^ rotr32 11 st.e ^^^ rotr32 25 st.e
  let ch := st.e &&& st.f ^^^ (4294967295 - st.e) &&& st.g
  let temp1 := u32 (st.h + S1 + ch + kw)
  let S0 := rotr32 2 st.a ^^^ rotr32 13 st.a ^^^ rotr32 22 st.a
  let maj := st.a &&& st.b ^^^ st.a &&& st.c ^^^ st.b &&& st.c
  let temp2 := u32 (S0 + maj)
  ⟨u32 (temp1 + temp2), st.a, st.b, st.c, u32 (st.d + temp1), st.e, st.f, st.g⟩

/-- Big-endian 32-bit words of a 64-byte block. -/
def blockWords32 (block : List Nat) : List Nat :=
  (List.range 16).map fun i =>
    block.getD (4 * i) 0 * 2 ^ 24 + block.getD (4 * i + 1) 0 * 2 ^ 16 +
      block.getD (4 * i + 2) 0 * 2 ^ 8 + block.getD (4 * i + 3) 0

/-- Compress one 64-byte block into the running SHA-256 state. -/
def sha256Compress (st : Sha256State) (block : List Nat) : Sha256State :=
  let w := sha256Extend (blockWords32 block) 48
  let t := (w.zip sha256K).foldl (fun s p => sha256Round s (u32 (p.1 + p.2))) st
  ⟨u32 (st.a + t.a), u32 (st.b + t.b), u32 (st.c + t.c), u32 (st.d + t.d),
   u32 (st.e + t.e), u32 (st.f + t.f), u32 (st.g + t.g), u32 (st.h + t.h)⟩

/-- Big-endian 8-byte encoding of a 64-bit length field. -/
def u64BEBytes (n : Nat) : List Nat :=
  [n / 2 ^ 56 % 256, n / 2 ^ 48 % 256, n / 2 ^ 40 % 256, n / 2 ^ 32 % 256,
   n / 2 ^ 24 % 256, n / 2 ^ 16 % 256, n / 2 ^ 8 % 256, n % 256]

/-- Big-endian 4-byte encoding of a 32-bit value. -/
def u32BEBytes (n : Nat) : List Nat :=
  [n / 2 ^ 24 % 256, n / 2 ^ 16 % 256, n / 2 ^ 8 % 256, n % 256]

/-- SHA-256 message padding: `0x80`, zero bytes, 64-bit big-endian bit
length, to a multiple of 64 bytes. -/
def sha256Pad (msg : List Nat) : List Nat :=
  msg ++ [128] ++ List.replicate ((120 - (msg.length + 1) % 64) % 64) 0 ++
    u64BEBytes (8 * msg.length)

/-- Fuelled split of a padded message into blocks of the given size. -/
def toBlocksAux (blockLen : Nat) : Nat → List Nat → List (List Nat)
  | 0, _ => []
  | fuel + 1, l =>
    if l.length = 0 then []
    else l.take blockLen :: toBlocksAux blockLen fuel (l.drop blockLen)

/-- Split a padded message into blocks of the given size. -/
def toBlocks (blockLen : Nat) (l : List Nat) : List (List Nat) :=
  toBlocksAux blockLen l.length l

/-- The 32-byte SHA-256 digest of a byte sequence. -/
def sha256Bytes (msg : List Nat) : List Nat :=
  let f := (toBlocks 64 (sha256Pad msg)).foldl sha256Compress sha256Init
  u32BEBytes f.a ++ u32BEBytes f.b ++ u32BEBytes f.c ++ u32BEBytes f.d ++
    u32BEBytes f.e ++ u32BEBytes f.f ++ u32BEBytes f.g ++ u32BEBytes f.h

/-- Embedding of `firstSHA256Byte` from `src/v2/bip39.go`: the first byte of the
SHA-256 digest of the data. -/
def firstSHA256Byte (data : List Nat) : Nat := (sha256Bytes data).getD 0 0

/-! ### SHA-512, HMAC-SHA-512 and PBKDF2 (the `crypto/sha512` and
`golang.org/x/crypto/pbkdf2` collaborators, implemented per FIPS 180-4
and RFC 2898) -/

/-- Truncation to 64 bits. -/
def u64 (x : Nat) : Nat := x % 18446744073709551616

/-- Right-rotation by `n` of a 64-bit value below `2^64`. -/
def rotr64 (n x : Nat) : Nat := x / 2 ^ n + x % 2 ^ n * 2 ^ (64 - n)

/-- The eight-word working state of a SHA-512 compression. -/
structure Sha512State where
  a : Nat
  b : Nat
  c : Nat
  d : Nat
  e : Nat
  f : Nat
  g : Nat
  h : Nat

/-- SHA-512 initial hash value. -/
def sha512Init : Sha512State :=
  ⟨7640891576956012808, 13503953896175478587, 4354685564936845355,
   11912009170470909681, 5840696475078001361, 11170449401992604703,
   2270897969802886507, 6620516959819538809⟩

/-- SHA-512 round constants. -/
def sha512K : List Nat :=
  [4794697086780616226, 8158064640168781261, 13096744586834688815,
   16840607885511220156, 4131703408338449720, 6480981068601479193,
   10538285296894168987, 12329834152419229976, 15566598209576043074,
   1334009975649890238, 2608012711638119052, 6128411473006802146,
   8268148722764581231, 9286055187155687089, 11230858885718282805,
   13951009754708518548, 16472876342353939154, 17275323862435702243,
   1135362057144423861, 2597628984639134821, 3308224258029322869,
   5365058923640841347, 6679025012923562964, 8573033837759648693,
   10970295158949994411, 12119686244451234320, 12683024718118986047,
   13788192230050041572, 14330467153632333762, 15395433587784984357,
   489312712824947311, 1452737877330783856, 2861767655752347644,
   3322285676063803686, 5560940570517711597, 5996557281743188959,
   7280758554555802590, 8532644243296465576, 9350256976987008742,
   10552545826968843579, 11727347734174303076, 12113106623233404929,
   14000437183269869457, 14369950271660146224, 15101387698204529176,
   15463397548674623760, 17586052441742319658, 1182934255886127544,
   1847814050463011016, 2177327727835720531, 2830643537854262169,
   3796741975233480872, 4115178125766777443, 5681478168544905931,
   6601373596472566643, 7507060721942968483, 8399075790359081724,
   8693463985226723168, 9568029438360202098, 10144078919501101548,
   10430055236837252648, 11840083180663258601, 13761210420658862357,
   14299343276471374635, 14566680578165727644, 15097957966210449927,
   16922976911328602910, 17689382322260857208, 500013540394364858,
   748580250866718886, 1242879168328830382, 1977374033974150939,
   2944078676154940804, 3659926193048069267, 4368137639120453308,
   4836135668995329356, 5532061633213252278, 6448918945643986474,
   6902733635092675308, 7801388544844847127]

/-- Extend a sixteen-word SHA-512 message block to the 80-word schedule. -/
def sha512Extend (w : List Nat) : Nat → List Nat
  | 0 => w
  | t + 1 =>
    let w := sha512Extend w t
    let i := w.length
    let w15 := w.getD (i - 15) 0
    let w2 := w.getD (i - 2) 0
    let s0 := rotr64 1 w15 ^^^ rotr64 8 w15 ^^^ w15 / 2 ^ 7
    let s1 := rotr64 19 w2 ^^^ rotr64 61 w2 ^^^ w2 / 2 ^ 6
    w ++ [u64 (w.getD (i - 16) 0 + s0 + w.getD (i - 7) 0 + s1)]

/-- One SHA-512 compression round. -/
def sha512Round (st : Sha512State) (kw : Nat) : Sha512State :=
  let S1 := rotr64 14 st.e ^^^ rotr64 18 st.e ^^^ rotr64 41 st.e
  let ch := st.e &&& st.f ^^^ (18446744073709551615 - st.e) &&& st.g
  let temp1 := u64 (st.h + S1 + ch + kw)
  let S0 := rotr64 28 st.a ^^^ rotr64 34 st.a ^^^ rotr64 39 st.a
  let maj := st.a &&& st.b ^^^ st.a &&& st.c ^^^ st.b &&& st.c
  let temp2 := u64 (S0 + maj)
  ⟨u64 (temp1 + temp2), st.a, st.b, st.c, u64 (st.d + temp1), st.e, st.f, st.g⟩

/-- Big-endian 64-bit words of a 128-byte block. -/
def blockWords64 (block : List Nat) : List Nat :=
  (List.range 16).map fun i =>
    (List.range 8).foldl (fun acc j => acc * 256 + block.getD (8 * i + j) 0) 0

/-- Compress one 128-byte block into the running SHA-512 state. -/
def sha512Compress (st : Sha512State) (block : List Nat) : Sha512State :=
  let w := sha512Extend (blockWords64 block) 64
  let t := (w.zip sha512K).foldl (fun s p => sha512Round s (u64 (p.1 + p.2))) st
  ⟨u64 (st.a + t.a), u64 (st.b + t.b), u64 (st.c + t.c), u64 (st.d + t.d),
   u64 (st.e + t.e), u64 (st.f + t.f), u64 (st.g + t.g), u64 (st.h + t.h)⟩

/-- Big-endian 8-byte encoding of a 64-bit word. -/
def u64Bytes (n : Nat) : List Nat :=
  [n / 2 ^ 56 % 256, n / 2 ^ 48 % 256, n / 2 ^ 40 % 256, n / 2 ^ 32 % 256,
   n / 2 ^ 24 % 256, n / 2 ^ 16 % 256, n / 2 ^ 8 % 256, n % 256]

/-- SHA-512 message padding: `0x80`, zero bytes, 128-bit big-endian bit
length, to a multiple of 128 bytes. -/
def sha512Pad (msg : List Nat) : List Nat :=
  msg ++ [128] ++ List.replicate ((240 - (msg.length + 1) % 128) % 128) 0 ++
    List.replicate 8 0 ++ u64Bytes (8 * msg.length)

/-- The 64-byte SHA-512 digest of a byte sequence. -/
def sha512Bytes (msg : List Nat) : List Nat :=
  let f := (toBlocks 128 (sha512Pad msg)).foldl sha512Compress sha512Init
  u64Bytes f.a ++ u64Bytes f.b ++ u64Bytes f.c ++ u64Bytes f.d ++
    u64Bytes f.e ++ u64Bytes f.f ++ u64Bytes f.g ++ u64Bytes f.h

/-- HMAC-SHA-512 per RFC 2104 (block size 128 bytes). -/
def hmacSha512 (key msg : List Nat) : List Nat :=
  let k0 := if 128 < key.length then sha512Bytes key else key
  let k1 := k0 ++ List.replicate (128 - k0.length) 0
  sha512Bytes (k1.map (fun b => b ^^^ 92) ++
    sha512Bytes (k1.map (fun b => b ^^^ 54) ++ msg))

/-- The chained-XOR iteration of one PBKDF2 block: `u` is the last
HMAC output, `t` the running XOR accumulator. -/
def pbkdf2Go (pw : List Nat) : Nat → List Nat → List Nat → List Nat
  | 0, _, t => t
  | n + 1, u, t =>
    let u2 := hmacSha512 pw u
    pbkdf2Go pw n u2 (t.zipWith (fun a b => a ^^^ b) u2)

/-- One PBKDF2 output block `F(pw, salt, iter, blockIdx)`. -/
def pbkdf2Block (pw salt : List Nat) (iter blockIdx : Nat) : List Nat :=
  let u1 := hmacSha512 pw (salt ++ u32BEBytes blockIdx)
  pbkdf2Go pw (iter - 1) u1 u1

/-- PBKDF2 with HMAC-SHA-512 as the pseudo-random function. -/
def pbkdf2HmacSha512 (pw salt : List Nat) (iter dkLen : Nat) : List Nat :=
  let nBlocks := (dkLen + 63) / 64
  (((List.range nBlocks).map fun i => pbkdf2Block pw salt iter (i + 1)).flatten).take dkLen

/-! ### UTF-8 bytes of a Go string -/

/-- UTF-8 encoding of one character. -/
def utf8Char (c : Char) : List Nat :=
  let n := c.toNat
  if n < 128 then [n]
  else if n < 2048 then [192 + n / 64, 128 + n % 64]
  else if n < 65536 then [224 + n / 4096, 128 + n / 64 % 64, 128 + n % 64]
  else [240 + n / 262144, 128 + n / 4096 % 64, 128 + n / 64 % 64, 128 + n % 64]

/-- Go `[]byte(s)`: the UTF-8 bytes of a string. -/
def strBytes (s : GoStr) : List Nat := (List.map utf8Char s).flatten

/-! ### Errors and the size table (`src/errors.go`, `src/encryption.go`
part holding `sizes`, `sizeParamsFromEntropyLen`,
`sizeParamsFromWordSetLen`) -/

/-- The error values the embedded functions can surface. -/
inductive GoErr where
  | entropyInvalidLength
  | wordSetInvalidLength
  | checksumIncorrect
  | unknownWord (w : GoStr)
  | keySize (n : Nat)
deriving DecidableEq

instance {ε α : Type} [DecidableEq ε] [DecidableEq α] :
    DecidableEq (Except ε α) := fun a b =>
  match a, b with
  | .ok x, .ok y => if h : x = y then .isTrue (by rw [h]) else .isFalse (by simp [h])
  | .error x, .error y => if h : x = y then .isTrue (by rw [h]) else .isFalse (by simp [h])
  | .ok _, .error _ => .isFalse (by simp)
  | .error _, .ok _ => .isFalse (by simp)

/-- The record `sizeParams`: all the parameters used for working mnemonics of a set
size. The two `big.Int` fields of the source are the numbers they are
set to. -/
structure SizeParams where
  wordLen : Nat
  entropyLen : Nat
  checksumBitLen : Nat
  checksumANDMask : Nat
  checksumShiftOperand : Nat
deriving DecidableEq

/-- The `sizes` table: constants for each valid size of mnemonic. -/
def sizes : List SizeParams :=
  [⟨12, 16, 4, 15, 16⟩,
   ⟨15, 20, 5, 31, 32⟩,
   ⟨18, 24, 6, 63, 64⟩,
   ⟨21, 28, 7, 127, 128⟩,
   ⟨24, 32, 8, 255, 256⟩]

/-- Embedding of `sizeParamsFromEntropyLen`: project a byte length to an index of
`sizes`. Go's `/` on `int` truncates toward zero, which is `Int.tdiv`. -/
def sizeParamsFromEntropyLen (l : Int) : Except GoErr SizeParams :=
  let sizeType := Int.tdiv (l - 16) 4
  if sizeType < 0 ∨ 4 < sizeType then .error .entropyInvalidLength
  else .ok (sizes.getD sizeType.toNat ⟨0, 0, 0, 0, 0⟩)

/-- Embedding of `sizeParamsFromWordSetLen`: project a word-set length to an index of
`sizes`. -/
def sizeParamsFromWordSetLen (l : Int) : Except GoErr SizeParams :=
  let sizeType := Int.tdiv (l - 12) 3
  if sizeType < 0 ∨ 4 < sizeType then .error .wordSetInvalidLength
  else .ok (sizes.getD sizeType.toNat ⟨0, 0, 0, 0, 0⟩)

/-! ### The codec (`src/v2/bip39.go`) -/

/-- Modelled from the spec: the `Language` record of the v2 package is
defined outside the files available here; per the spec a word list is an
ordered sequence of 2048 strings (`wordSet`) together with an inverse
mapping word -> index (`indices`, a Go map, hence `Option`). -/
structure Language39 where
  wordSet : List GoStr
  indices : GoStr → Option Nat

/-- The checksum-appending loop of `addChecksum`: run `k` iterations,
each doubling the accumulator and OR-ing in the next checksum bit of
`cs`, taken most-significant-bit first. -/
def csAppend (cs : Nat) : Nat → Nat → Nat
  | 0, n => n
  | k + 1, n =>
    let m := csAppend cs k n * 2
    if 0 < cs &&& 1 <<< (7 - k) then m ||| 1 else m

/-- Embedding of `addChecksum`: append the first `checksumBitLen` bits of
`sha256(rawEntropy)` to the entropy and return the bytes padded to
`entropyLen + 1`. -/
def addChecksum (size : SizeParams) (rawEntropy : List Nat) : List Nat :=
  let cs := firstSHA256Byte rawEntropy
  let entropy := csAppend cs size.checksumBitLen (bytesToNat rawEntropy)
  padByteSlice (natToBytes entropy) (size.entropyLen + 1)

/-- The word-extraction loop of `wordsFromEntropy`: Go fills `words`
from the last index down, masking the low 11 bits and shifting right by
11 each step; the recursion builds the same list. -/
def wordsLoop (wordSet : List GoStr) (e : Nat) : Nat → List GoStr
  | 0 => []
  | n + 1 =>
    wordsLoop wordSet (e / 2048) n ++
      [wordSet.getD (uint16BE (padByteSlice (natToBytes (e &&& 2047)) 2)) []]

/-- Embedding of `wordsFromEntropy`: turn an entropy slice into a word set using the
given `Language` for word lookups. -/
def wordsFromEntropy (lang : Language39) (entropy : List Nat) :
    Except GoErr (List GoStr) :=
  match sizeParamsFromEntropyLen (entropy.length : Int) with
  | .error e => .error e
  | .ok sizeParams =>
    .ok (wordsLoop lang.wordSet (bytesToNat (addChecksum sizeParams entropy))
      sizeParams.wordLen)

/-- The index-accumulation loop of `entropyFromWords`:
`entropyAndChecksum = (entropyAndChecksum << 11) | wordIndex` for each
word, failing on a word absent from the language. -/
def entropyFoldLoop (lang : Language39) : List GoStr → Nat → Except GoErr Nat
  | [], acc => .ok acc
  | w :: ws, acc =>
    match lang.indices w with
    | none => .error (.unknownWord w)
    | some index => entropyFoldLoop lang ws (acc * 2048 ||| index)

/-- Embedding of `entropyFromWords`: turn a word set back into entropy, verifying the
checksum. (`givenChecksum.IsInt64()` in the source is always true, since
the AND-mask keeps the value below 256.) -/
def entropyFromWords (lang : Language39) (words : List GoStr) :
    Except GoErr (List Nat) :=
  match sizeParamsFromWordSetLen (words.length : Int) with
  | .error e => .error e
  | .ok sizeType =>
    match entropyFoldLoop lang words 0 with
    | .error e => .error e
    | .ok entropyAndChecksum =>
      let givenChecksum := entropyAndChecksum &&& sizeType.checksumANDMask
      let rawEntropy := entropyAndChecksum / sizeType.checksumShiftOperand
      let rawEntropyBytes := padByteSlice (natToBytes rawEntropy) sizeType.entropyLen
      let computedChecksumBits :=
        firstSHA256Byte rawEntropyBytes >>> (8 - sizeType.checksumBitLen)
      if givenChecksum ≠ computedChecksumBits then .error .checksumIncorrect
      else .ok rawEntropyBytes

/-- Embedding of `seedFromMnemonicString`: the seed bytes for a mnemonic string and
password, by PBKDF2 (HMAC-SHA-512, 2048 iterations, 64 bytes, salt
`mnemonic + password`). -/
def seedFromMnemonicString (mnemonicStr password : GoStr) : List Nat :=
  pbkdf2HmacSha512 (strBytes mnemonicStr) (strBytes (gs (r"mnemonic") ++ password))
    2048 64

/-- Embedding of `normalizeMnemonicString`: applies the standard normalization to the
string; the NFKD transform itself lives in `golang.org/x/text` and is
passed in as `nf`. -/
def normalizeMnemonicString (nf : GoStr → GoStr) (m : GoStr) : GoStr := nf m

/-- Embedding of `strings.Split` on a single ASCII space. -/
def splitOnSpace : GoStr → List GoStr
  | [] => [[]]
  | c :: rest =>
    if c = ' ' then [] :: splitOnSpace rest
    else
      match splitOnSpace rest with
      | w :: ws => (c :: w) :: ws
      | [] => [[c]]

/-- Embedding of `strings.Join` with a single ASCII space. -/
def joinSpace : List GoStr → GoStr
  | [] => []
  | [w] => w
  | w :: ws => w ++ (' ' :: joinSpace ws)

/-- Embedding of `parseRawMnemonic`: split the normalized mnemonic string into its
word set. -/
def parseRawMnemonic (nf : GoStr → GoStr) (rawMnemonic : GoStr) : List GoStr :=
  splitOnSpace (normalizeMnemonicString nf rawMnemonic)

/-- Embedding of `compileMnemonic`: the normalized string of a word set. -/
def compileMnemonic (nf : GoStr → GoStr) (words : List GoStr) : GoStr :=
  normalizeMnemonicString nf (joinSpace words)

/-- The `Mnemonic` record: entropy and language plus the memoized
string, word set and seed. -/
structure Mnemonic where
  entropy : List Nat
  lang : Language39
  str : GoStr
  words : List GoStr
  seed : List Nat

/-- Embedding of `FromEntropy`: construct a `Mnemonic` from a valid entropy slice. -/
def FromEntropy (nf : GoStr → GoStr) (lang : Language39) (entropy : List Nat)
    (password : GoStr) : Except GoErr Mnemonic :=
  match wordsFromEntropy lang entropy with
  | .error e => .error e
  | .ok words =>
    let str := compileMnemonic nf words
    .ok ⟨entropy, lang, str, words, seedFromMnemonicString str password⟩

/-- Embedding of `FromString`: construct a `Mnemonic` from a mnemonic string. The
stored string and the seed use the raw input; the word set is parsed
from its normalization. -/
def FromString (nf : GoStr → GoStr) (lang : Language39) (rawMnemonic : GoStr)
    (password : GoStr) : Except GoErr Mnemonic :=
  match entropyFromWords lang (parseRawMnemonic nf rawMnemonic) with
  | .error e => .error e
  | .ok entropy =>
    .ok ⟨entropy, lang, rawMnemonic, parseRawMnemonic nf rawMnemonic,
      seedFromMnemonicString rawMnemonic password⟩

/-! ### Entropy encryption (`src/encryption.go` and the variant in
`src/encyrption_test.go`) -/

/-- Embedding of `aes.NewCipher`: succeeds exactly when the key is 16, 24 or 32
bytes long (AES-128/192/256), per the `crypto/aes` contract. -/
def newCipher (key : List Nat) : Except GoErr Unit :=
  if key.length = 16 ∨ key.length = 24 ∨ key.length = 32 then .ok ()
  else .error (.keySize key.length)

/-- Embedding of `cipher.NewCTR` with the all-zero IV followed by `XORKeyStream`:
byte `i` of the output XORs byte `i` of the source with byte `i % 16` of
the block cipher applied to counter block `i / 16`. The block cipher
`blockEnc` itself (AES under the derived key) is the external
collaborator and is passed in as a function. -/
def xorKeyStreamCTR (blockEnc : List Nat → List Nat) (src : List Nat) :
    List Nat :=
  (List.range src.length).map fun i =>
    src.getD i 0 ^^^ (blockEnc (padByteSlice (natToBytes (i / 16)) 16)).getD (i % 16) 0

/-- The body shared by both `EncryptEntropy` variants after their
`pwHash` is derived: build the cipher for the key (the fallible
`aes.NewCipher` call) and XOR the CTR key stream over the entropy. -/
def encryptWithKey (blockEnc : List Nat → List Nat → List Nat)
    (pwHash entropy : List Nat) : Except GoErr (List Nat) :=
  match newCipher pwHash with
  | .error e => .error e
  | .ok _ => .ok (xorKeyStreamCTR (blockEnc pwHash) entropy)

/-- Embedding of `EncryptEntropy` from `src/encryption.go`: key = SHA-256 of the
password, AES-CTR with zero IV over the entropy. `blockEnc key block` is
the AES block encryption of the external `crypto/aes` library. -/
def EncryptEntropy (blockEnc : List Nat → List Nat → List Nat)
    (entropy : List Nat) (password : GoStr) : Except GoErr (List Nat) :=
  encryptWithKey blockEnc (sha256Bytes (strBytes password)) entropy

/-- Embedding of `EncryptEntropy` from `src/encyrption_test.go`: key = PBKDF2
(HMAC-SHA-512, salt `mnemonic-encryption`, 2048 iterations, 32 bytes) of
the password, AES-CTR with zero IV over the entropy. -/
def EncryptEntropyKDF (blockEnc : List Nat → List Nat → List Nat)
    (entropy : List Nat) (password : GoStr) : Except GoErr (List Nat) :=
  encryptWithKey blockEnc (pbkdf2HmacSha512 (strBytes password)
    (strBytes (gs (r"mnemonic-encryption"))) 2048 32) entropy

/-! ### Spec-side definitions and concrete witness instances -/

/-- Follows the words of the specification (spec section 4.2, encode):
append the top `checksumBits` bits of the checksum byte (its value
shifted right by `8 - checksumBits`) to the entropy bit-stream,
partition the combined stream into consecutive 11-bit groups
most-significant group first, and output the word at each group's index.
Stated for comparison against `wordsFromEntropy`. -/
def encodeSpecWords (lang : Language39) (e : List Nat) (sp : SizeParams) :
    List GoStr :=
  let stream := bytesToNat e * 2 ^ sp.checksumBitLen +
    firstSHA256Byte e / 2 ^ (8 - sp.checksumBitLen)
  (List.range sp.wordLen).map fun i =>
    lang.wordSet.getD (stream / (2 ^ 11) ^ (sp.wordLen - 1 - i) % 2 ^ 11) []

/-- A synthetic word for index `n`: eleven characters spelling the bits
of `n`, least significant first. Used to build a concrete consistent
word list for witnesses. -/
def natToWord (n : Nat) : GoStr :=
  (List.range 11).map fun k => if n / 2 ^ k % 2 = 1 then 'b' else 'a'

/-- Decode a synthetic word back to its index. -/
def wordToNatAux : GoStr → Nat → Nat
  | [], _ => 0
  | c :: cs, k => (if c = 'b' then 2 ^ k else 0) + wordToNatAux cs (k + 1)

/-- A concrete 2048-entry language with a consistent inverse mapping. -/
def mkLang : Language39 :=
  ⟨(List.range 2048).map natToWord, fun w => some (wordToNatAux w 0)⟩

/-- A concrete two-word language: only `abandon` (index 0) and `about`
(index 3) are known. Enough to decode the all-zero 128-bit mnemonic. -/
def tinyLang : Language39 :=
  ⟨[], fun w =>
    if w = gs (r"abandon") then some 0
    else if w = gs (r"about") then some 3
    else none⟩

/-- A language with an empty word list and no known words: encoding
never consults `indices`, so it works for encode-only statements. -/
def trivLang : Language39 := ⟨[], fun _ => none⟩

/-- A concrete normalizer for counterexamples: rewrite the character A
to lowercase a, everywhere. It is idempotent, and acts on the raw
mnemonic below the way NFKD acts on a non-normalized string. -/
def nf0 (s : GoStr) : GoStr := s.map fun c => if c = 'A' then 'a' else c

/-- A raw mnemonic string that is not `nf0`-normalized: its first word
is capitalized. -/
def raw0 : GoStr :=
  gs (r"Abandon abandon abandon abandon abandon abandon abandon abandon abandon abandon abandon about")

/-- The `nf0`-normalization of `raw0`. -/
def low0 : GoStr :=
  gs (r"abandon abandon abandon abandon abandon abandon abandon abandon abandon abandon abandon about")

/-! ### Toolkit: byte-sequence / number conversions -/

theorem byteFold_eq (l : List Nat) :
    ∀ a, List.foldl (fun acc b => acc * 256 + b) a l =
      a * 256 ^ l.length + bytesToNat l := by
  induction l with
  | nil => intro a; simp [bytesToNat]
  | cons b t ih =>
    intro a
    simp only [List.foldl_cons, List.length_cons, bytesToNat]
    rw [ih (a * 256 + b), ih (0 * 256 + b)]
    ring

theorem bytesToNat_cons (b : Nat) (t : List Nat) :
    bytesToNat (b :: t) = b * 256 ^ t.length + bytesToNat t := by
  simpa [bytesToNat] using byteFold_eq t b

theorem bytesToNat_append_singleton (l : List Nat) (b : Nat) :
    bytesToNat (l ++ [b]) = bytesToNat l * 256 + b := by
  simp only [bytesToNat, List.foldl_append, List.foldl_cons, List.foldl_nil]

theorem bytesToNat_lt (l : List Nat) (h : ∀ b ∈ l, b < 256) :
    bytesToNat l < 256 ^ l.length := by
  induction l with
  | nil => simp [bytesToNat]
  | cons b t ih =>
    rw [bytesToNat_cons]
    have hb : b < 256 := h b (by simp)
    have ht : bytesToNat t < 256 ^ t.length := ih fun x hx => h x (by simp [hx])
    have hsm : (b + 1) * 256 ^ t.length = b * 256 ^ t.length + 256 ^ t.length := by
      ring
    have : b * 256 ^ t.length + bytesToNat t < (b + 1) * 256 ^ t.length := by
      omega
    calc b * 256 ^ t.length + bytesToNat t < (b + 1) * 256 ^ t.length := this
      _ ≤ 256 * 256 ^ t.length := Nat.mul_le_mul_right _ (by omega)
      _ = 256 ^ (t.length + 1) := by rw [Nat.pow_succ]; ring
      _ = 256 ^ (b :: t).length := by simp

theorem bytesToNat_replicate_zero (k : Nat) (l : List Nat) :
    bytesToNat (List.replicate k 0 ++ l) = bytesToNat l := by
  induction k with
  | zero => simp
  | succ n ih =>
    have : List.replicate (n + 1) 0 ++ l = 0 :: (List.replicate n 0 ++ l) := by
      simp [List.replicate_succ]
    rw [this, bytesToNat_cons, ih]
    simp

theorem natToBytesAux_zero (f : Nat) : natToBytesAux f 0 = [] := by
  cases f <;> simp [natToBytesAux]

theorem natToBytesAux_fuel (f g n : Nat) (hf : n ≤ f) (hg : n ≤ g) :
    natToBytesAux f n = natToBytesAux g n := by
  induction n using Nat.strong_induction_on generalizing f g with
  | _ n ih =>
    by_cases h0 : n = 0
    · subst h0
      rw [natToBytesAux_zero, natToBytesAux_zero]
    · have hlt : n / 256 < n := Nat.div_lt_self (Nat.pos_of_ne_zero h0) (by omega)
      cases f with
      | zero => omega
      | succ fp =>
        cases g with
        | zero => omega
        | succ gp =>
          simp only [natToBytesAux, h0, if_false]
          rw [ih (n / 256) hlt fp (n / 256) (by omega) (by omega),
            ih (n / 256) hlt gp (n / 256) (by omega) (by omega)]

theorem natToBytes_zero : natToBytes 0 = [] := by decide

theorem natToBytes_succ (n : Nat) (h : n ≠ 0) :
    natToBytes n = natToBytes (n / 256) ++ [n % 256] := by
  have h1 : natToBytesAux (n + 1) n = natToBytesAux n (n / 256) ++ [n % 256] := by
    simp [natToBytesAux, h]
  have hlt : n / 256 < n := Nat.div_lt_self (Nat.pos_of_ne_zero h) (by omega)
  rw [natToBytes, h1, natToBytes,
    natToBytesAux_fuel n (n / 256 + 1) (n / 256) (by omega) (by omega)]

theorem natToBytes_small (n : Nat) (h1 : 0 < n) (h2 : n < 256) :
    natToBytes n = [n] := by
  rw [natToBytes_succ n (by omega), Nat.div_eq_of_lt h2, natToBytes_zero,
    Nat.mod_eq_of_lt h2, List.nil_append]

theorem bytesToNat_natToBytes (n : Nat) : bytesToNat (natToBytes n) = n := by
  induction n using Nat.strong_induction_on with
  | _ n ih =>
    by_cases h0 : n = 0
    · simp [h0, natToBytes_zero, bytesToNat]
    · have hlt : n / 256 < n := Nat.div_lt_self (Nat.pos_of_ne_zero h0) (by omega)
      rw [natToBytes_succ n h0, bytesToNat_append_singleton, ih _ hlt]
      omega

theorem natToBytes_bytes_lt (n : Nat) : ∀ b ∈ natToBytes n, b < 256 := by
  induction n using Nat.strong_induction_on with
  | _ n ih =>
    by_cases h0 : n = 0
    · simp [h0, natToBytes_zero]
    · have hlt : n / 256 < n := Nat.div_lt_self (Nat.pos_of_ne_zero h0) (by omega)
      rw [natToBytes_succ n h0]
      intro b hb
      rcases List.mem_append.mp hb with h | h
      · exact ih _ hlt b h
      · simp only [List.mem_singleton] at h
        omega

theorem natToBytes_length_le (n L : Nat) (h : n < 256 ^ L) :
    (natToBytes n).length ≤ L := by
  induction n using Nat.strong_induction_on generalizing L with
  | _ n ih =>
    by_cases h0 : n = 0
    · simp [h0, natToBytes_zero]
    · have hlt : n / 256 < n := Nat.div_lt_self (Nat.pos_of_ne_zero h0) (by omega)
      match L with
      | 0 => omega
      | Lp + 1 =>
        rw [natToBytes_succ n h0]
        have hdiv : n / 256 < 256 ^ Lp := by
          rw [Nat.div_lt_iff_lt_mul (by omega)]
          calc n < 256 ^ (Lp + 1) := h
            _ = 256 ^ Lp * 256 := by rw [Nat.pow_succ]
        have := ih _ hlt Lp hdiv
        simp only [List.length_append, List.length_singleton]
        omega

theorem padByteSlice_length (slice : List Nat) (L : Nat) :
    (padByteSlice slice L).length = max L slice.length := by
  unfold padByteSlice
  split <;> rename_i h
  · omega
  · simp only [List.length_append, List.length_replicate]
    omega

theorem padByteSlice_value (slice : List Nat) (L : Nat) :
    bytesToNat (padByteSlice slice L) = bytesToNat slice := by
  unfold padByteSlice
  split
  · rfl
  · exact bytesToNat_replicate_zero _ _

theorem padByteSlice_bytes_lt (slice : List Nat) (L : Nat)
    (h : ∀ b ∈ slice, b < 256) : ∀ b ∈ padByteSlice slice L, b < 256 := by
  unfold padByteSlice
  split
  · exact h
  · intro b hb
    rcases List.mem_append.mp hb with hm | hm
    · have := List.eq_of_mem_replicate hm
      omega
    · exact h b hm

theorem bytesToNat_inj (l1 l2 : List Nat) (hlen : l1.length = l2.length)
    (h1 : ∀ b ∈ l1, b < 256) (h2 : ∀ b ∈ l2, b < 256)
    (hv : bytesToNat l1 = bytesToNat l2) : l1 = l2 := by
  induction l1 generalizing l2 with
  | nil =>
    cases l2 with
    | nil => rfl
    | cons c t => simp at hlen
  | cons b t ih =>
    cases l2 with
    | nil => simp at hlen
    | cons c t2 =>
      simp only [List.length_cons, Nat.add_right_cancel_iff] at hlen
      rw [bytesToNat_cons, bytesToNat_cons, ← hlen] at hv
      have hbt : bytesToNat t < 256 ^ t.length :=
        bytesToNat_lt t fun x hx => h1 x (by simp [hx])
      have hct : bytesToNat t2 < 256 ^ t2.length :=
        bytesToNat_lt t2 fun x hx => h2 x (by simp [hx])
      rw [← hlen] at hct
      have hbc : b = c := by
        by_cases hlt : b < c
        · have : (b + 1) * 256 ^ t.length ≤ c * 256 ^ t.length :=
            Nat.mul_le_mul_right _ (by omega)
          have hd : (b + 1) * 256 ^ t.length = b * 256 ^ t.length + 256 ^ t.length := by
            ring
          omega
        · by_cases hgt : c < b
          · have : (c + 1) * 256 ^ t.length ≤ b * 256 ^ t.length :=
              Nat.mul_le_mul_right _ (by omega)
            have hd : (c + 1) * 256 ^ t.length = c * 256 ^ t.length + 256 ^ t.length := by
              ring
            omega
          · omega
      subst hbc
      have hveq : bytesToNat t = bytesToNat t2 := by omega
      rw [ih t2 hlen (fun x hx => h1 x (by simp [hx]))
        (fun x hx => h2 x (by simp [hx])) hveq]

theorem pad_natToBytes_roundtrip (e : List Nat) (h : ∀ b ∈ e, b < 256) :
    padByteSlice (natToBytes (bytesToNat e)) e.length = e := by
  have hval : bytesToNat e < 256 ^ e.length := bytesToNat_lt e h
  have hlenle : (natToBytes (bytesToNat e)).length ≤ e.length :=
    natToBytes_length_le _ _ hval
  apply bytesToNat_inj
  · rw [padByteSlice_length]; omega
  · exact padByteSlice_bytes_lt _ _ (natToBytes_bytes_lt _)
  · exact h
  · rw [padByteSlice_value, bytesToNat_natToBytes]

theorem uint16BE_pad (m : Nat) (h : m < 65536) :
    uint16BE (padByteSlice (natToBytes m) 2) = m := by
  by_cases h0 : m = 0
  · subst h0; decide
  · by_cases h1 : m < 256
    · rw [natToBytes_small m (by omega) h1]
      simp [padByteSlice, uint16BE, List.getD]
    · have hq1 : 0 < m / 256 := Nat.div_pos (by omega) (by omega)
      have hq2 : m / 256 < 256 := by
        rw [Nat.div_lt_iff_lt_mul (by omega)]; omega
      rw [natToBytes_succ m h0, natToBytes_small (m / 256) hq1 hq2]
      have : ([m / 256] ++ [m % 256] : List Nat) = [m / 256, m % 256] := rfl
      rw [this]
      simp only [padByteSlice, List.length_cons, List.length_singleton, uint16BE]
      norm_num [List.getD]
      omega

/-! ### Toolkit: bit arithmetic -/

theorem lorDisjoint (k : Nat) : ∀ a b : Nat, b < 2 ^ k →
    a * 2 ^ k ||| b = a * 2 ^ k + b := by
  induction k with
  | zero =>
    intro a b hb
    interval_cases b
    simp
  | succ n ih =>
    intro a b hb
    rw [Nat.pow_succ] at hb ⊢
    have key : a * (2 ^ n * 2) = a * 2 ^ n * 2 := by ring
    rw [key]
    have hdiv : (a * 2 ^ n * 2 ||| b) / 2 = a * 2 ^ n + b / 2 := by
      rw [Nat.or_div_two, Nat.mul_div_cancel _ (by omega : 0 < 2)]
      exact ih a (b / 2) (by omega)
    have hmod : (a * 2 ^ n * 2 ||| b) % 2 = b % 2 := by
      rcases Nat.mod_two_eq_zero_or_one b with h | h
      · have hno : ¬(a * 2 ^ n * 2 % 2 = 1 ∨ b % 2 = 1) := by omega
        have hne := (not_iff_not.mpr (Nat.or_mod_two_eq_one
          (a := a * 2 ^ n * 2) (b := b))).mpr hno
        omega
      · have := (Nat.or_mod_two_eq_one (a := a * 2 ^ n * 2) (b := b)).mpr
          (Or.inr h)
        omega
    omega

theorem land_mod_2048 (e : Nat) : e &&& 2047 = e % 2048 := by
  have := Nat.and_pow_two_sub_one_eq_mod e 11
  norm_num at this
  exact this

theorem firstSHA256Byte_lt (d : List Nat) : firstSHA256Byte d < 256 := by
  simp only [firstSHA256Byte, sha256Bytes, u32BEBytes, List.cons_append,
    List.getD_cons_zero]
  exact Nat.mod_lt _ (by omega)

theorem csAppend_step (cs k n : Nat) :
    csAppend cs (k + 1) n = csAppend cs k n * 2 + cs / 2 ^ (7 - k) % 2 := by
  have h1 : cs &&& 1 <<< (7 - k) = (cs.testBit (7 - k)).toNat * 2 ^ (7 - k) := by
    rw [Nat.shiftLeft_eq, one_mul, Nat.and_two_pow]
  have h2 : cs.testBit (7 - k) = decide (cs / 2 ^ (7 - k) % 2 = 1) :=
    Nat.testBit_to_div_mod
  show (if 0 < cs &&& 1 <<< (7 - k) then csAppend cs k n * 2 ||| 1
    else csAppend cs k n * 2) = _
  by_cases hp : cs / 2 ^ (7 - k) % 2 = 1
  · have htb : cs.testBit (7 - k) = true := by rw [h2]; simp [hp]
    have hpos : 0 < cs &&& 1 <<< (7 - k) := by
      rw [h1, htb]
      simp [Nat.pos_pow_of_pos]
    rw [if_pos hpos]
    have hor : csAppend cs k n * 2 ||| 1 = csAppend cs k n * 2 + 1 := by
      have := lorDisjoint 1 (csAppend cs k n) 1 (by omega)
      simpa using this
    rw [hor, hp]
  · have htb : cs.testBit (7 - k) = false := by rw [h2]; simp [hp]
    have hz : cs &&& 1 <<< (7 - k) = 0 := by rw [h1, htb]; simp
    rw [if_neg (by omega)]
    omega

theorem csAppend_eq (cs : Nat) (hcs : cs < 256) :
    ∀ k, k ≤ 8 → ∀ n, csAppend cs k n = n * 2 ^ k + cs / 2 ^ (8 - k) := by
  intro k
  induction k with
  | zero =>
    intro _ n
    show n = n * 1 + cs / 2 ^ 8
    rw [Nat.div_eq_of_lt (by omega)]
    omega
  | succ k ih =>
    intro hk8 n
    rw [csAppend_step, ih (by omega) n]
    have hdd : cs / 2 ^ (8 - k) = cs / 2 ^ (7 - k) / 2 := by
      rw [Nat.div_div_eq_div_mul, ← Nat.pow_succ]
      congr 2
      omega
    have h81 : 8 - (k + 1) = 7 - k := by omega
    rw [h81, Nat.pow_succ, hdd]
    have hx : n * (2 ^ k * 2) = n * 2 ^ k * 2 := by ring
    omega

theorem bytesToNat_addChecksum (size : SizeParams) (e : List Nat)
    (hcs : size.checksumBitLen ≤ 8) :
    bytesToNat (addChecksum size e) =
      bytesToNat e * 2 ^ size.checksumBitLen +
        firstSHA256Byte e / 2 ^ (8 - size.checksumBitLen) := by
  unfold addChecksum
  rw [padByteSlice_value, bytesToNat_natToBytes,
    csAppend_eq _ (firstSHA256Byte_lt e) _ hcs]

theorem wordsLoop_eq (ws : List GoStr) :
    ∀ n e, wordsLoop ws e n =
      (List.range n).map fun i => ws.getD (e / 2048 ^ (n - 1 - i) % 2048) [] := by
  intro n
  induction n with
  | zero => intro e; simp [wordsLoop]
  | succ n ih =>
    intro e
    have hidx : uint16BE (padByteSlice (natToBytes (e &&& 2047)) 2) = e % 2048 := by
      rw [land_mod_2048]
      exact uint16BE_pad _ (by omega)
    show wordsLoop ws (e / 2048) n ++ [ws.getD _ []] = _
    rw [hidx, ih (e / 2048), List.range_succ, List.map_append]
    congr 1
    · apply List.map_congr_left
      intro i hi
      have hin : i < n := List.mem_range.mp hi
      have hdd : e / 2048 / 2048 ^ (n - 1 - i) = e / 2048 ^ (n + 1 - 1 - i) := by
        rw [Nat.div_div_eq_div_mul, ← Nat.pow_succ']
        congr 2
        omega
      rw [hdd]
    · simp

theorem mod_base_pow_succ (B n e : Nat) (hB : 0 < B) :
    e % B ^ (n + 1) = e / B % B ^ n * B + e % B := by
  have hBn : 0 < B ^ n := Nat.pos_pow_of_pos n hB
  have hr : e % B < B := Nat.mod_lt _ hB
  have hBle : B ≤ B ^ n * B := by
    have := Nat.mul_le_mul_right B hBn
    omega
  have hlt : e / B % B ^ n * B + e % B < B ^ n * B := by
    have h2 : e / B % B ^ n < B ^ n := Nat.mod_lt _ hBn
    have h2s : e / B % B ^ n + 1 ≤ B ^ n := h2
    have hm := Nat.mul_le_mul_right B h2s
    have hexp : (e / B % B ^ n + 1) * B = e / B % B ^ n * B + B := by ring
    omega
  have hinner : e % B % (B ^ n * B) = e % B :=
    Nat.mod_eq_of_lt (lt_of_lt_of_le hr hBle)
  conv_lhs => rw [← Nat.div_add_mod e B]
  rw [Nat.pow_succ, Nat.mul_comm B (e / B), Nat.add_mod,
    Nat.mul_mod_mul_right, hinner, Nat.mod_eq_of_lt hlt]

theorem entropyFoldLoop_append (lang : Language39) (l1 l2 : List GoStr) :
    ∀ acc, entropyFoldLoop lang (l1 ++ l2) acc =
      match entropyFoldLoop lang l1 acc with
      | .ok a => entropyFoldLoop lang l2 a
      | .error e => .error e := by
  induction l1 with
  | nil => intro acc; rfl
  | cons w t ih =>
    intro acc
    cases hw : lang.indices w with
    | none => simp only [List.cons_append, entropyFoldLoop, hw]
    | some idx =>
      simp only [List.cons_append, entropyFoldLoop, hw]
      exact ih _

set_option maxRecDepth 4000 in
theorem entropyFoldLoop_wordsLoop (lang : Language39)
    (hc : ∀ i, i < 2048 → lang.indices (lang.wordSet.getD i []) = some i) :
    ∀ n e acc, entropyFoldLoop lang (wordsLoop lang.wordSet e n) acc =
      .ok (acc * 2048 ^ n + e % 2048 ^ n) := by
  intro n
  induction n with
  | zero =>
    intro e acc
    show Except.ok acc = _
    rw [Nat.pow_zero, Nat.mod_one, Nat.mul_one, Nat.add_zero]
  | succ n ih =>
    intro e acc
    have hidx : uint16BE (padByteSlice (natToBytes (e &&& 2047)) 2) = e % 2048 := by
      rw [land_mod_2048]
      exact uint16BE_pad _ (by omega)
    show entropyFoldLoop lang
      (wordsLoop lang.wordSet (e / 2048) n ++ [lang.wordSet.getD _ []]) acc = _
    rw [hidx, entropyFoldLoop_append, ih (e / 2048) acc]
    show entropyFoldLoop lang [lang.wordSet.getD (e % 2048) []] _ = _
    unfold entropyFoldLoop
    rw [hc (e % 2048) (Nat.mod_lt _ (by omega))]
    show Except.ok ((acc * 2048 ^ n + e / 2048 % 2048 ^ n) * 2048 ||| e % 2048) = _
    have hor : (acc * 2048 ^ n + e / 2048 % 2048 ^ n) * 2048 ||| e % 2048 =
        (acc * 2048 ^ n + e / 2048 % 2048 ^ n) * 2048 + e % 2048 := by
      have := lorDisjoint 11 (acc * 2048 ^ n + e / 2048 % 2048 ^ n) (e % 2048)
        (by norm_num; exact Nat.mod_lt _ (by omega))
      norm_num at this
      exact this
    rw [hor, mod_base_pow_succ 2048 n e (by omega)]
    congr 1
    rw [Nat.pow_succ]
    ring

theorem entropyFoldLoop_lt (lang : Language39)
    (hidx : ∀ w i, lang.indices w = some i → i < 2048) :
    ∀ (ws : List GoStr) (acc E : Nat),
      entropyFoldLoop lang ws acc = .ok E → E < (acc + 1) * 2048 ^ ws.length := by
  intro ws
  induction ws with
  | nil =>
    intro acc E h
    have : acc = E := by
      simpa [entropyFoldLoop] using h
    subst this
    simp
  | cons w t ih =>
    intro acc E h
    cases hw : lang.indices w with
    | none =>
      rw [show entropyFoldLoop lang (w :: t) acc = .error (.unknownWord w) from by
        simp [entropyFoldLoop, hw]] at h
      exact absurd h (by simp)
    | some idx =>
      have h2 : entropyFoldLoop lang t (acc * 2048 ||| idx) = .ok E := by
        rw [← h]
        simp [entropyFoldLoop, hw]
      have hi : idx < 2048 := hidx w idx hw
      have hor : acc * 2048 ||| idx = acc * 2048 + idx := by
        have := lorDisjoint 11 acc idx (by norm_num; exact hi)
        norm_num at this
        exact this
      rw [hor] at h2
      have hE := ih (acc * 2048 + idx) E h2
      have h1 : acc * 2048 + idx + 1 ≤ (acc + 1) * 2048 := by
        have hx : (acc + 1) * 2048 = acc * 2048 + 2048 := by ring
        omega
      calc E < (acc * 2048 + idx + 1) * 2048 ^ t.length := hE
        _ ≤ (acc + 1) * 2048 * 2048 ^ t.length := Nat.mul_le_mul_right _ h1
        _ = (acc + 1) * 2048 ^ (w :: t).length := by
          simp only [List.length_cons]
          rw [Nat.pow_succ]
          ring

/-! ### Toolkit: encode and decode characterizations -/

theorem getD_map_range {α : Type} (f : Nat → α) (n i : Nat) (hi : i < n)
    (d : α) : ((List.range n).map f).getD i d = f i := by
  rw [List.getD_eq_getElem?_getD, List.getElem?_map, List.getElem?_range hi]
  rfl

theorem wordsLoop_length (ws : List GoStr) (e n : Nat) :
    (wordsLoop ws e n).length = n := by
  rw [wordsLoop_eq]
  simp

theorem wordsFromEntropy_eq (lang : Language39) (e : List Nat)
    (sp : SizeParams)
    (hsz : sizeParamsFromEntropyLen (e.length : Int) = .ok sp)
    (hcs8 : sp.checksumBitLen ≤ 8) :
    wordsFromEntropy lang e =
      .ok ((List.range sp.wordLen).map fun i =>
        lang.wordSet.getD
          ((bytesToNat e * 2 ^ sp.checksumBitLen +
              firstSHA256Byte e / 2 ^ (8 - sp.checksumBitLen)) /
            2048 ^ (sp.wordLen - 1 - i) % 2048) []) := by
  unfold wordsFromEntropy
  rw [hsz]
  show Except.ok (wordsLoop lang.wordSet (bytesToNat (addChecksum sp e))
    sp.wordLen) = _
  rw [wordsLoop_eq, bytesToNat_addChecksum sp e hcs8]

theorem entropyFromWords_ok_char (lang : Language39) (ws : List GoStr)
    (sp : SizeParams) (E : Nat)
    (hsz2 : sizeParamsFromWordSetLen (ws.length : Int) = .ok sp)
    (hfold : entropyFoldLoop lang ws 0 = .ok E) :
    entropyFromWords lang ws =
      if E &&& sp.checksumANDMask ≠
          firstSHA256Byte (padByteSlice (natToBytes (E / sp.checksumShiftOperand))
            sp.entropyLen) >>> (8 - sp.checksumBitLen)
      then .error .checksumIncorrect
      else .ok (padByteSlice (natToBytes (E / sp.checksumShiftOperand))
        sp.entropyLen) := by
  unfold entropyFromWords
  rw [hsz2, hfold]

theorem roundtrip_core (lang : Language39) (e : List Nat) (sp : SizeParams)
    (hsz : sizeParamsFromEntropyLen (e.length : Int) = .ok sp)
    (hsz2 : sizeParamsFromWordSetLen (sp.wordLen : Int) = .ok sp)
    (hcs8 : sp.checksumBitLen ≤ 8)
    (hmask : sp.checksumANDMask = 2 ^ sp.checksumBitLen - 1)
    (hshift : sp.checksumShiftOperand = 2 ^ sp.checksumBitLen)
    (hbits : 8 * sp.entropyLen + sp.checksumBitLen = 11 * sp.wordLen)
    (hlen : sp.entropyLen = e.length)
    (hbytes : ∀ b ∈ e, b < 256)
    (hc : ∀ i, i < 2048 → lang.indices (lang.wordSet.getD i []) = some i) :
    (wordsFromEntropy lang e).bind (entropyFromWords lang) = .ok e := by
  unfold wordsFromEntropy
  rw [hsz]
  show entropyFromWords lang
    (wordsLoop lang.wordSet (bytesToNat (addChecksum sp e)) sp.wordLen) = .ok e
  have hEval : bytesToNat (addChecksum sp e) =
      bytesToNat e * 2 ^ sp.checksumBitLen +
        firstSHA256Byte e / 2 ^ (8 - sp.checksumBitLen) :=
    bytesToNat_addChecksum sp e hcs8
  have hfb : firstSHA256Byte e < 256 := firstSHA256Byte_lt e
  have hpowsplit : (2 : Nat) ^ (8 - sp.checksumBitLen) * 2 ^ sp.checksumBitLen
      = 256 := by
    rw [← Nat.pow_add]
    have : 8 - sp.checksumBitLen + sp.checksumBitLen = 8 := by omega
    rw [this]
  have hcsb : firstSHA256Byte e / 2 ^ (8 - sp.checksumBitLen) <
      2 ^ sp.checksumBitLen := by
    rw [Nat.div_lt_iff_lt_mul (Nat.pos_pow_of_pos _ (by omega)),
      Nat.mul_comm (2 ^ sp.checksumBitLen)]
    calc firstSHA256Byte e < 256 := hfb
      _ = 2 ^ (8 - sp.checksumBitLen) * 2 ^ sp.checksumBitLen := hpowsplit.symm
  have hM : bytesToNat e < 2 ^ (8 * sp.entropyLen) := by
    have h1 : bytesToNat e < 256 ^ e.length := bytesToNat_lt e hbytes
    have h2 : (256 : Nat) ^ e.length = 2 ^ (8 * e.length) := by
      rw [Nat.pow_mul]
    rw [hlen]
    rw [h2] at h1
    exact h1
  have hEbound : bytesToNat (addChecksum sp e) < 2048 ^ sp.wordLen := by
    rw [hEval]
    have hstep : (bytesToNat e + 1) * 2 ^ sp.checksumBitLen ≤
        2 ^ (8 * sp.entropyLen) * 2 ^ sp.checksumBitLen :=
      Nat.mul_le_mul_right _ hM
    have hexp : (bytesToNat e + 1) * 2 ^ sp.checksumBitLen =
        bytesToNat e * 2 ^ sp.checksumBitLen + 2 ^ sp.checksumBitLen := by ring
    have hpow : (2 : Nat) ^ (8 * sp.entropyLen) * 2 ^ sp.checksumBitLen =
        2048 ^ sp.wordLen := by
      rw [← Nat.pow_add, hbits]
      have h2048 : (2048 : Nat) = 2 ^ 11 := by norm_num
      rw [h2048, ← Nat.pow_mul]
    omega
  have hfold : entropyFoldLoop lang
      (wordsLoop lang.wordSet (bytesToNat (addChecksum sp e)) sp.wordLen) 0 =
      .ok (bytesToNat (addChecksum sp e)) := by
    rw [entropyFoldLoop_wordsLoop lang hc sp.wordLen _ 0]
    rw [Nat.zero_mul, Nat.zero_add, Nat.mod_eq_of_lt hEbound]
  have hsz2w : sizeParamsFromWordSetLen
      (((wordsLoop lang.wordSet (bytesToNat (addChecksum sp e))
        sp.wordLen).length : Nat) : Int) = .ok sp := by
    rw [wordsLoop_length]
    exact hsz2
  rw [entropyFromWords_ok_char lang _ sp _ hsz2w hfold]
  have hgiven : bytesToNat (addChecksum sp e) &&& sp.checksumANDMask =
      firstSHA256Byte e / 2 ^ (8 - sp.checksumBitLen) := by
    rw [hmask, Nat.and_pow_two_sub_one_eq_mod, hEval,
      Nat.mul_comm (bytesToNat e), Nat.mul_add_mod,
      Nat.mod_eq_of_lt hcsb]
  have hraw : bytesToNat (addChecksum sp e) / sp.checksumShiftOperand =
      bytesToNat e := by
    rw [hshift, hEval, Nat.mul_comm (bytesToNat e),
      Nat.mul_add_div (Nat.pos_pow_of_pos _ (by omega)),
      Nat.div_eq_of_lt hcsb, Nat.add_zero]
  have hpad : padByteSlice
      (natToBytes (bytesToNat (addChecksum sp e) / sp.checksumShiftOperand))
      sp.entropyLen = e := by
    rw [hraw, hlen]
    exact pad_natToBytes_roundtrip e hbytes
  rw [hpad, hgiven, Nat.shiftRight_eq_div_pow]
  simp

/-! ### Toolkit: output lengths of the KDF stack -/

theorem sha512Bytes_length (msg : List Nat) : (sha512Bytes msg).length = 64 := by
  simp [sha512Bytes, u64Bytes]

theorem hmacSha512_length (key msg : List Nat) :
    (hmacSha512 key msg).length = 64 :=
  sha512Bytes_length _

theorem pbkdf2Go_length (pw : List Nat) :
    ∀ (n : Nat) (u t : List Nat), t.length = 64 →
      (pbkdf2Go pw n u t).length = 64 := by
  intro n
  induction n with
  | zero => intro u t ht; exact ht
  | succ k ih =>
    intro u t ht
    show (pbkdf2Go pw k (hmacSha512 pw u)
      (t.zipWith (fun a b => a ^^^ b) (hmacSha512 pw u))).length = 64
    apply ih
    rw [List.length_zipWith, ht, hmacSha512_length]
    simp

theorem pbkdf2Block_length (pw salt : List Nat) (iter blockIdx : Nat) :
    (pbkdf2Block pw salt iter blockIdx).length = 64 := by
  apply pbkdf2Go_length
  exact hmacSha512_length _ _

theorem pbkdf2HmacSha512_length (pw salt : List Nat) (iter dkLen : Nat) :
    (pbkdf2HmacSha512 pw salt iter dkLen).length = dkLen := by
  unfold pbkdf2HmacSha512
  rw [List.length_take]
  have h : ∀ n, (((List.range n).map fun i =>
      pbkdf2Block pw salt iter (i + 1)).flatten).length = n * 64 := by
    intro n
    induction n with
    | zero => simp
    | succ k ih =>
      rw [List.range_succ, List.map_append, List.flatten_append, List.length_append,
        ih]
      simp [pbkdf2Block_length]
      omega
  rw [h]
  omega

/-! ### Toolkit: the normalizer pipeline -/

theorem splitOnSpace_ne_nil (s : GoStr) : splitOnSpace s ≠ [] := by
  cases s with
  | nil => simp [splitOnSpace]
  | cons c rest =>
    by_cases hc : c = ' '
    · simp [splitOnSpace, hc]
    · simp only [splitOnSpace, hc, if_false]
      cases splitOnSpace rest <;> simp

theorem joinSpace_splitOnSpace (s : GoStr) : joinSpace (splitOnSpace s) = s := by
  induction s with
  | nil => rfl
  | cons c rest ih =>
    by_cases hc : c = ' '
    · subst hc
      rw [show splitOnSpace (' ' :: rest) = [] :: splitOnSpace rest from by
        simp [splitOnSpace]]
      cases hl : splitOnSpace rest with
      | nil => exact absurd hl (splitOnSpace_ne_nil rest)
      | cons w ws =>
        rw [hl] at ih
        show ' ' :: joinSpace (w :: ws) = ' ' :: rest
        rw [ih]
    · rw [show splitOnSpace (c :: rest) = (match splitOnSpace rest with
        | w :: ws => (c :: w) :: ws
        | [] => [[c]]) from by simp [splitOnSpace, hc]]
      cases hl : splitOnSpace rest with
      | nil => exact absurd hl (splitOnSpace_ne_nil rest)
      | cons w ws =>
        rw [hl] at ih
        cases ws with
        | nil =>
          have ih' : w = rest := ih
          show c :: w = c :: rest
          rw [ih']
        | cons w2 ws2 =>
          have ih' : w ++ (' ' :: joinSpace (w2 :: ws2)) = rest := ih
          show c :: (w ++ (' ' :: joinSpace (w2 :: ws2))) = c :: rest
          rw [ih']

/-! ### Toolkit: the CTR key stream -/

theorem xorKeyStreamCTR_length (f : List Nat → List Nat) (src : List Nat) :
    (xorKeyStreamCTR f src).length = src.length := by
  simp [xorKeyStreamCTR]

theorem xorKeyStreamCTR_involution (f : List Nat → List Nat) (src : List Nat) :
    xorKeyStreamCTR f (xorKeyStreamCTR f src) = src := by
  apply List.ext_getElem
  · rw [xorKeyStreamCTR_length, xorKeyStreamCTR_length]
  · intro i h1 h2
    have hl1 : (xorKeyStreamCTR f (xorKeyStreamCTR f src)).length = src.length := by
      rw [xorKeyStreamCTR_length, xorKeyStreamCTR_length]
    have hi : i < src.length := by omega
    unfold xorKeyStreamCTR
    rw [List.getElem_map, List.getElem_range, getD_map_range _ src.length i hi,
      Nat.xor_assoc, Nat.xor_self, Nat.xor_zero, List.getD_eq_getElem?_getD,
      List.getElem?_eq_getElem hi]
    rfl

/-! ### Toolkit: the concrete witness language -/

theorem wordToNatAux_bits : ∀ (m n k : Nat),
    wordToNatAux ((List.range m).map fun j =>
      if n / 2 ^ j % 2 = 1 then 'b' else 'a') k = n % 2 ^ m * 2 ^ k := by
  intro m
  induction m with
  | zero =>
    intro n k
    simp [wordToNatAux]
    omega
  | succ m ih =>
    intro n k
    rw [List.range_succ_eq_map, List.map_cons, List.map_map]
    have hcomp : ((fun j => if n / 2 ^ j % 2 = 1 then 'b' else 'a') ∘ Nat.succ) =
        fun j => if n / 2 / 2 ^ j % 2 = 1 then 'b' else 'a' := by
      funext j
      have hj : n / 2 ^ Nat.succ j = n / 2 / 2 ^ j := by
        rw [Nat.pow_succ', ← Nat.div_div_eq_div_mul]
      simp only [Function.comp]
      rw [hj]
    rw [hcomp]
    simp only [wordToNatAux]
    rw [ih (n / 2) (k + 1)]
    rw [mod_base_pow_succ 2 m n (by omega)]
    have hp : (2 : Nat) ^ (k + 1) = 2 ^ k * 2 := Nat.pow_succ ..
    rcases Nat.mod_two_eq_zero_or_one n with h | h
    · rw [if_neg (by simp [Nat.pow_zero, Nat.div_one, h])]
      rw [hp, h]
      ring
    · rw [if_pos (by simp [Nat.pow_zero, Nat.div_one, h])]
      rw [hp, h]
      ring

theorem wordToNat_natToWord : ∀ i, i < 2048 → wordToNatAux (natToWord i) 0 = i := by
  intro i hi
  show wordToNatAux ((List.range 11).map fun k =>
    if i / 2 ^ k % 2 = 1 then 'b' else 'a') 0 = i
  rw [wordToNatAux_bits 11 i 0]
  have : i % 2 ^ 11 = i := Nat.mod_eq_of_lt (by omega)
  rw [this, Nat.pow_zero, Nat.mul_one]

set_option maxRecDepth 10000 in
theorem mkLang_length : mkLang.wordSet.length = 2048 := by
  show ((List.range 2048).map natToWord).length = 2048
  rw [List.length_map, List.length_range]

set_option maxRecDepth 10000 in
theorem mkLang_consistent :
    ∀ i, i < 2048 → mkLang.indices (mkLang.wordSet.getD i []) = some i := by
  intro i hi
  show some (wordToNatAux (((List.range 2048).map natToWord).getD i []) 0) =
    some i
  rw [getD_map_range natToWord 2048 i hi, wordToNat_natToWord i hi]

/-! ### Toolkit: per-size facts of the size table -/

theorem size_from_entropylen (l : Nat) (sp : SizeParams)
    (hlen : l = 16 ∨ l = 20 ∨ l = 24 ∨ l = 28 ∨ l = 32)
    (hsz : sizeParamsFromEntropyLen (l : Int) = .ok sp) :
    sp.entropyLen = l ∧ sp.checksumBitLen ≤ 8 ∧
    sp.checksumANDMask = 2 ^ sp.checksumBitLen - 1 ∧
    sp.checksumShiftOperand = 2 ^ sp.checksumBitLen ∧
    8 * sp.entropyLen + sp.checksumBitLen = 11 * sp.wordLen ∧
    sizeParamsFromWordSetLen (sp.wordLen : Int) = .ok sp := by
  rcases hlen with h | h | h | h | h <;> subst h
  · rw [show sizeParamsFromEntropyLen ((16 : Nat) : Int) =
      Except.ok ⟨12, 16, 4, 15, 16⟩ from by decide] at hsz
    injection hsz with h2
    subst h2
    refine ⟨rfl, by decide, by decide, by decide, by decide, by decide⟩
  · rw [show sizeParamsFromEntropyLen ((20 : Nat) : Int) =
      Except.ok ⟨15, 20, 5, 31, 32⟩ from by decide] at hsz
    injection hsz with h2
    subst h2
    refine ⟨rfl, by decide, by decide, by decide, by decide, by decide⟩
  · rw [show sizeParamsFromEntropyLen ((24 : Nat) : Int) =
      Except.ok ⟨18, 24, 6, 63, 64⟩ from by decide] at hsz
    injection hsz with h2
    subst h2
    refine ⟨rfl, by decide, by decide, by decide, by decide, by decide⟩
  · rw [show sizeParamsFromEntropyLen ((28 : Nat) : Int) =
      Except.ok ⟨21, 28, 7, 127, 128⟩ from by decide] at hsz
    injection hsz with h2
    subst h2
    refine ⟨rfl, by decide, by decide, by decide, by decide, by decide⟩
  · rw [show sizeParamsFromEntropyLen ((32 : Nat) : Int) =
      Except.ok ⟨24, 32, 8, 255, 256⟩ from by decide] at hsz
    injection hsz with h2
    subst h2
    refine ⟨rfl, by decide, by decide, by decide, by decide, by decide⟩

theorem size_from_wordlen (l : Nat) (sp : SizeParams)
    (hlen : l = 12 ∨ l = 15 ∨ l = 18 ∨ l = 21 ∨ l = 24)
    (hsz : sizeParamsFromWordSetLen (l : Int) = .ok sp) :
    sp.wordLen = l ∧ sp.checksumBitLen ≤ 8 ∧
    sp.checksumANDMask = 2 ^ sp.checksumBitLen - 1 ∧
    sp.checksumShiftOperand = 2 ^ sp.checksumBitLen ∧
    8 * sp.entropyLen + sp.checksumBitLen = 11 * sp.wordLen := by
  rcases hlen with h | h | h | h | h <;> subst h
  · rw [show sizeParamsFromWordSetLen ((12 : Nat) : Int) =
      Except.ok ⟨12, 16, 4, 15, 16⟩ from by decide] at hsz
    injection hsz with h2
    subst h2
    refine ⟨rfl, by decide, by decide, by decide, by decide⟩
  · rw [show sizeParamsFromWordSetLen ((15 : Nat) : Int) =
      Except.ok ⟨15, 20, 5, 31, 32⟩ from by decide] at hsz
    injection hsz with h2
    subst h2
    refine ⟨rfl, by decide, by decide, by decide, by decide⟩
  · rw [show sizeParamsFromWordSetLen ((18 : Nat) : Int) =
      Except.ok ⟨18, 24, 6, 63, 64⟩ from by decide] at hsz
    injection hsz with h2
    subst h2
    refine ⟨rfl, by decide, by decide, by decide, by decide⟩
  · rw [show sizeParamsFromWordSetLen ((21 : Nat) : Int) =
      Except.ok ⟨21, 28, 7, 127, 128⟩ from by decide] at hsz
    injection hsz with h2
    subst h2
    refine ⟨rfl, by decide, by decide, by decide, by decide⟩
  · rw [show sizeParamsFromWordSetLen ((24 : Nat) : Int) =
      Except.ok ⟨24, 32, 8, 255, 256⟩ from by decide] at hsz
    injection hsz with h2
    subst h2
    refine ⟨rfl, by decide, by decide, by decide, by decide⟩

/-! ### Claims -/

/-- C3: Round-trip: for every entropy byte sequence of valid length
(16, 20, 24, 28 or 32 bytes) and every word list of 2048 entries with a
consistent inverse mapping, decoding the word sequence produced by
encoding the entropy returns exactly the same bytes with the same
length. -/
theorem c3_decode_encode_roundtrip (lang : Language39) (e : List Nat)
    (hlen : e.length = 16 ∨ e.length = 20 ∨ e.length = 24 ∨
      e.length = 28 ∨ e.length = 32)
    (hbytes : ∀ b ∈ e, b < 256)
    (hL : lang.wordSet.length = 2048)
    (hc : ∀ i, i < 2048 → lang.indices (lang.wordSet.getD i []) = some i) :
    (wordsFromEntropy lang e).bind (entropyFromWords lang) = .ok e := by
  have hsz : ∃ sp, sizeParamsFromEntropyLen ((e.length : Nat) : Int) = .ok sp := by
    rcases hlen with h | h | h | h | h <;> rw [h]
    · exact ⟨⟨12, 16, 4, 15, 16⟩, by decide⟩
    · exact ⟨⟨15, 20, 5, 31, 32⟩, by decide⟩
    · exact ⟨⟨18, 24, 6, 63, 64⟩, by decide⟩
    · exact ⟨⟨21, 28, 7, 127, 128⟩, by decide⟩
    · exact ⟨⟨24, 32, 8, 255, 256⟩, by decide⟩
  obtain ⟨sp, hsz⟩ := hsz
  obtain ⟨hel, hcs8, hmask, hshift, hbits, hsz2⟩ :=
    size_from_entropylen e.length sp hlen hsz
  exact roundtrip_core lang e sp hsz hsz2 hcs8 hmask hshift hbits hel hbytes hc

/-- Witness for C3: the all-zero 16-byte entropy under the concrete
2048-word language `mkLang` round-trips to itself. -/
theorem c3_witness :
    (wordsFromEntropy mkLang (List.replicate 16 0)).bind
      (entropyFromWords mkLang) = .ok (List.replicate 16 0) :=
  c3_decode_encode_roundtrip mkLang (List.replicate 16 0)
    (Or.inl (by simp))
    (fun b hb => by
      have := List.eq_of_mem_replicate hb
      omega)
    mkLang_length mkLang_consistent

/-- C4: Encode algorithm: for every valid-length entropy, encode
appends the top `checksumBits` bits of the first byte of the SHA-256 of
the entropy to the entropy bit-stream most-significant-bit first; the
combined stream has length `8 * entropyBytes + checksumBits`, an exact
multiple of 11, and the output is the word at the index given by each
consecutive 11-bit group, most-significant group first. -/
theorem c4_encode_algorithm (lang : Language39) (e : List Nat)
    (hlen : e.length = 16 ∨ e.length = 20 ∨ e.length = 24 ∨
      e.length = 28 ∨ e.length = 32)
    (hbytes : ∀ b ∈ e, b < 256) :
    ∃ sp, sizeParamsFromEntropyLen ((e.length : Nat) : Int) = .ok sp ∧
      8 * sp.entropyLen + sp.checksumBitLen = 11 * sp.wordLen ∧
      sp.entropyLen = e.length ∧
      wordsFromEntropy lang e = .ok (encodeSpecWords lang e sp) := by
  have hsz : ∃ sp, sizeParamsFromEntropyLen ((e.length : Nat) : Int) = .ok sp := by
    rcases hlen with h | h | h | h | h <;> rw [h]
    · exact ⟨⟨12, 16, 4, 15, 16⟩, by decide⟩
    · exact ⟨⟨15, 20, 5, 31, 32⟩, by decide⟩
    · exact ⟨⟨18, 24, 6, 63, 64⟩, by decide⟩
    · exact ⟨⟨21, 28, 7, 127, 128⟩, by decide⟩
    · exact ⟨⟨24, 32, 8, 255, 256⟩, by decide⟩
  obtain ⟨sp, hsz⟩ := hsz
  obtain ⟨hel, hcs8, hmask, hshift, hbits, hsz2⟩ :=
    size_from_entropylen e.length sp hlen hsz
  refine ⟨sp, hsz, hbits, hel, ?_⟩
  rw [wordsFromEntropy_eq lang e sp hsz hcs8]
  congr 1

/-- Witness for C4: the all-zero 16-byte entropy (under a language whose
word list is empty, which neither side of the equation consults
beyond defaulted lookups). -/
theorem c4_witness :
    ∃ sp, sizeParamsFromEntropyLen (((List.replicate 16 0).length : Nat) : Int) =
        .ok sp ∧
      8 * sp.entropyLen + sp.checksumBitLen = 11 * sp.wordLen ∧
      sp.entropyLen = (List.replicate 16 0).length ∧
      wordsFromEntropy trivLang (List.replicate 16 0) =
        .ok (encodeSpecWords trivLang (List.replicate 16 0) sp) :=
  c4_encode_algorithm trivLang (List.replicate 16 0)
    (Or.inl (by simp))
    (fun b hb => by
      have := List.eq_of_mem_replicate hb
      omega)

theorem tinyLang_idx : ∀ w i, tinyLang.indices w = some i → i < 2048 := by
  intro w i h
  have h' : (if w = gs (r"abandon") then some 0
    else if w = gs (r"about") then some 3 else none) = some i := h
  split at h'
  · injection h' with h2
    omega
  · split at h'
    · injection h' with h2
      omega
    · exact absurd h' (by simp)

/-- C5: Decode left-padding: for every word sequence of one of the five
valid lengths (under a word list whose indices are 11-bit) that decodes
successfully, the returned entropy is exactly `entropyLen` bytes long;
leading zero bytes are restored by the left padding. -/
theorem c5_decode_length (lang : Language39) (ws : List GoStr)
    (sp : SizeParams) (out : List Nat)
    (hlen : ws.length = 12 ∨ ws.length = 15 ∨ ws.length = 18 ∨
      ws.length = 21 ∨ ws.length = 24)
    (hidx : ∀ w i, lang.indices w = some i → i < 2048)
    (hsz : sizeParamsFromWordSetLen ((ws.length : Nat) : Int) = .ok sp)
    (hok : entropyFromWords lang ws = .ok out) :
    out.length = sp.entropyLen := by
  obtain ⟨hwl, hcs8, hmask, hshift, hbits⟩ :=
    size_from_wordlen ws.length sp hlen hsz
  cases hfold : entropyFoldLoop lang ws 0 with
  | error er =>
    have herr : entropyFromWords lang ws = .error er := by
      unfold entropyFromWords
      rw [hsz, hfold]
    rw [herr] at hok
    exact absurd hok (by simp)
  | ok E =>
    have hchar := entropyFromWords_ok_char lang ws sp E hsz hfold
    rw [hchar] at hok
    split at hok
    · exact absurd hok (by simp)
    · injection hok with h2
      rw [← h2, padByteSlice_length]
      have hE : E < 2048 ^ ws.length := by
        have := entropyFoldLoop_lt lang hidx ws 0 E hfold
        simpa using this
      have hdiv : E / sp.checksumShiftOperand < 256 ^ sp.entropyLen := by
        rw [hshift, Nat.div_lt_iff_lt_mul (Nat.pos_pow_of_pos _ (by omega))]
        calc E < 2048 ^ ws.length := hE
          _ = 256 ^ sp.entropyLen * 2 ^ sp.checksumBitLen := by
            rw [show (2048 : Nat) = 2 ^ 11 from by norm_num, ← Nat.pow_mul,
              show (256 : Nat) = 2 ^ 8 from by norm_num, ← Nat.pow_mul,
              ← Nat.pow_add]
            congr 1
            omega
      have hle := natToBytes_length_le _ _ hdiv
      omega

/-- Witness for C5: the twelve-word all-zero mnemonic under the concrete
two-word language decodes to sixteen zero bytes. -/
theorem c5_witness :
    (List.replicate 11 (gs (r"abandon")) ++ [gs (r"about")]).length = 12 ∧
    entropyFromWords tinyLang
      (List.replicate 11 (gs (r"abandon")) ++ [gs (r"about")]) =
        .ok (List.replicate 16 0) ∧
    (List.replicate 16 0).length = (⟨12, 16, 4, 15, 16⟩ : SizeParams).entropyLen :=
  ⟨by decide, by decide,
    c5_decode_length tinyLang
      (List.replicate 11 (gs (r"abandon")) ++ [gs (r"about")])
      ⟨12, 16, 4, 15, 16⟩ (List.replicate 16 0)
      (Or.inl (by decide)) tinyLang_idx (by decide) (by decide)⟩

/-- C6: Checksum verification: for a word sequence of one of the five
valid lengths in which every word is present in the word list (the
concatenated indices fold to `E`), decode fails with
`checksumIncorrect` if and only if the trailing `checksumBits` bits of
`E` differ from the top `checksumBits` bits of the first byte of the
SHA-256 of the leading `8 * entropyLen` bits; and the result is either
that failure or exactly the decoded entropy, with no other outcome. -/
theorem c6_checksum_iff (lang : Language39) (ws : List GoStr)
    (sp : SizeParams) (E : Nat)
    (hlen : ws.length = 12 ∨ ws.length = 15 ∨ ws.length = 18 ∨
      ws.length = 21 ∨ ws.length = 24)
    (hidx : ∀ w i, lang.indices w = some i → i < 2048)
    (hsz : sizeParamsFromWordSetLen ((ws.length : Nat) : Int) = .ok sp)
    (hfold : entropyFoldLoop lang ws 0 = .ok E) :
    (entropyFromWords lang ws = .error .checksumIncorrect ↔
      E % 2 ^ sp.checksumBitLen ≠
        firstSHA256Byte (padByteSlice (natToBytes (E / 2 ^ sp.checksumBitLen))
          sp.entropyLen) / 2 ^ (8 - sp.checksumBitLen)) ∧
    (entropyFromWords lang ws = .error .checksumIncorrect ∨
      entropyFromWords lang ws =
        .ok (padByteSlice (natToBytes (E / 2 ^ sp.checksumBitLen))
          sp.entropyLen)) := by
  obtain ⟨hwl, hcs8, hmask, hshift, hbits⟩ :=
    size_from_wordlen ws.length sp hlen hsz
  have hchar := entropyFromWords_ok_char lang ws sp E hsz hfold
  rw [hmask, hshift, Nat.and_pow_two_sub_one_eq_mod,
    Nat.shiftRight_eq_div_pow] at hchar
  rw [hchar]
  by_cases hcond : E % 2 ^ sp.checksumBitLen ≠
      firstSHA256Byte (padByteSlice (natToBytes (E / 2 ^ sp.checksumBitLen))
        sp.entropyLen) / 2 ^ (8 - sp.checksumBitLen)
  · rw [if_pos hcond]
    exact ⟨⟨fun _ => hcond, fun _ => rfl⟩, Or.inl rfl⟩
  · rw [if_neg hcond]
    refine ⟨⟨fun hcontra => absurd hcontra (by simp), fun hcontra =>
      absurd hcontra hcond⟩, Or.inr rfl⟩

/-- Witness for C6: in the twelve-word all-zero mnemonic the embedded
checksum `3` matches the recomputed one, so decode succeeds; the
equivalence holds with both sides false. -/
theorem c6_witness :
    (entropyFromWords tinyLang
        (List.replicate 11 (gs (r"abandon")) ++ [gs (r"about")]) =
          .error .checksumIncorrect ↔
      3 % 2 ^ (4 : Nat) ≠
        firstSHA256Byte (padByteSlice (natToBytes (3 / 2 ^ (4 : Nat))) 16) /
          2 ^ (8 - (4 : Nat))) ∧
    (entropyFromWords tinyLang
        (List.replicate 11 (gs (r"abandon")) ++ [gs (r"about")]) =
          .error .checksumIncorrect ∨
      entropyFromWords tinyLang
        (List.replicate 11 (gs (r"abandon")) ++ [gs (r"about")]) =
          .ok (padByteSlice (natToBytes (3 / 2 ^ (4 : Nat))) 16)) :=
  c6_checksum_iff tinyLang
    (List.replicate 11 (gs (r"abandon")) ++ [gs (r"about")])
    ⟨12, 16, 4, 15, 16⟩ 3
    (Or.inl (by decide)) tinyLang_idx (by decide) (by decide)

/-- C7: Seed derivation: for every mnemonic string and passphrase, the
seed is PBKDF2 with HMAC-SHA-512, 2048 iterations, password = the UTF-8
bytes of the string, salt = the UTF-8 bytes of `mnemonic` followed by
the passphrase; the output is always exactly 64 bytes, and the function
is a pure deterministic transformation. -/
theorem c7_seed_derivation (s p : GoStr) :
    seedFromMnemonicString s p =
      pbkdf2HmacSha512 (strBytes s) (strBytes (gs (r"mnemonic") ++ p))
        2048 64 ∧
    (seedFromMnemonicString s p).length = 64 ∧
    seedFromMnemonicString s p = seedFromMnemonicString s p :=
  ⟨rfl, pbkdf2HmacSha512_length _ _ _ _, rfl⟩

theorem sha256Bytes_length (msg : List Nat) : (sha256Bytes msg).length = 32 := by
  simp [sha256Bytes, u32BEBytes]

theorem encryptWithKey_ok (blockEnc : List Nat → List Nat → List Nat)
    (k src : List Nat) (hk32 : k.length = 32) :
    encryptWithKey blockEnc k src = .ok (xorKeyStreamCTR (blockEnc k) src) := by
  have hnc : newCipher k = .ok () := by
    unfold newCipher
    rw [if_pos (Or.inr (Or.inr hk32))]
  unfold encryptWithKey
  rw [hnc]

theorem except_bind_ok {ε α β : Type} (a : α) (f : α → Except ε β) :
    (Except.ok a).bind f = f a := rfl

theorem except_map_ok {ε α β : Type} (a : α) (f : α → β) :
    (Except.ok a : Except ε α).map f = .ok (f a) := rfl

theorem encryptWithKey_involution (blockEnc : List Nat → List Nat → List Nat)
    (k e : List Nat) (hk : k.length = 32) :
    ((encryptWithKey blockEnc k e).bind fun c =>
      encryptWithKey blockEnc k c) = .ok e ∧
    (encryptWithKey blockEnc k e).map List.length = .ok e.length := by
  constructor
  · rw [encryptWithKey_ok blockEnc k e hk]
    simp only [except_bind_ok]
    rw [encryptWithKey_ok blockEnc k _ hk, xorKeyStreamCTR_involution]
  · rw [encryptWithKey_ok blockEnc k e hk]
    simp only [except_map_ok]
    rw [xorKeyStreamCTR_length]

theorem encryptWithKey_never_errors (blockEnc : List Nat → List Nat → List Nat)
    (k e : List Nat) (hk : k.length = 32) :
    ∃ c, encryptWithKey blockEnc k e = .ok c ∧ c.length = e.length :=
  ⟨_, encryptWithKey_ok blockEnc k e hk, xorKeyStreamCTR_length _ _⟩

/-- C8: Encryption involution: for every entropy byte sequence, every
password and every block cipher, applying the entropy transform twice
with the same password recovers the original bytes, and the output
length always equals the input length; this holds for both
key-derivation variants of `EncryptEntropy`. -/
theorem c8_encrypt_involution (blockEnc : List Nat → List Nat → List Nat)
    (e : List Nat) (p : GoStr) :
    ((EncryptEntropy blockEnc e p).bind fun c =>
      EncryptEntropy blockEnc c p) = .ok e ∧
    (EncryptEntropy blockEnc e p).map List.length = .ok e.length ∧
    ((EncryptEntropyKDF blockEnc e p).bind fun c =>
      EncryptEntropyKDF blockEnc c p) = .ok e ∧
    (EncryptEntropyKDF blockEnc e p).map List.length = .ok e.length :=
  ⟨(encryptWithKey_involution blockEnc _ e (sha256Bytes_length (strBytes p))).1,
   (encryptWithKey_involution blockEnc _ e (sha256Bytes_length (strBytes p))).2,
   (encryptWithKey_involution blockEnc _ e
     (pbkdf2HmacSha512_length (strBytes p)
       (strBytes (gs (r"mnemonic-encryption"))) 2048 32)).1,
   (encryptWithKey_involution blockEnc _ e
     (pbkdf2HmacSha512_length (strBytes p)
       (strBytes (gs (r"mnemonic-encryption"))) 2048 32)).2⟩

/-- C10: `EncryptEntropy` never returns an error: for every entropy,
password and block cipher, the derived key is exactly 32 bytes (a valid
AES-256 key size), so the cipher construction cannot fail and the
function returns a ciphertext of the input's length with no error, in
both key-derivation variants. -/
theorem c10_encrypt_never_errors (blockEnc : List Nat → List Nat → List Nat)
    (e : List Nat) (p : GoStr) :
    (sha256Bytes (strBytes p)).length = 32 ∧
    (pbkdf2HmacSha512 (strBytes p)
      (strBytes (gs (r"mnemonic-encryption"))) 2048 32).length = 32 ∧
    (∃ c, EncryptEntropy blockEnc e p = .ok c ∧ c.length = e.length) ∧
    (∃ c, EncryptEntropyKDF blockEnc e p = .ok c ∧ c.length = e.length) :=
  ⟨sha256Bytes_length _, pbkdf2HmacSha512_length _ _ _ _,
    encryptWithKey_never_errors blockEnc _ e (sha256Bytes_length (strBytes p)),
    encryptWithKey_never_errors blockEnc _ e
      (pbkdf2HmacSha512_length (strBytes p)
        (strBytes (gs (r"mnemonic-encryption"))) 2048 32)⟩

/-- C9: Normalizer idempotence: for every idempotent normalizer (NFKD
is idempotent by the Unicode standard) and every mnemonic text,
compiling the words parsed from the text yields exactly the normalized
text: splitting on single spaces and rejoining is the identity, and a
second normalization is absorbed. -/
theorem c9_normalizer_idempotence (nf : GoStr → GoStr)
    (hidem : ∀ s, nf (nf s) = nf s) (x : GoStr) :
    compileMnemonic nf (parseRawMnemonic nf x) = normalizeMnemonicString nf x := by
  unfold compileMnemonic parseRawMnemonic normalizeMnemonicString
  rw [joinSpace_splitOnSpace]
  exact hidem x

/-- Witness for C9: the identity normalizer on a two-word text. -/
theorem c9_witness :
    compileMnemonic id (parseRawMnemonic id (gs (r"abandon about"))) =
      normalizeMnemonicString id (gs (r"abandon about")) :=
  c9_normalizer_idempotence id (fun _ => rfl) (gs (r"abandon about"))

/-- C1 (code bug): the size validation does not reject the lengths the
claim requires it to reject: byte lengths 17 and 33 project onto valid
table entries because Go's truncating integer division discards the
remainder, and word counts 13 and 25 likewise; encoding 17 bytes of
entropy then succeeds and returns a 12-word mnemonic instead of failing
with the invalid-entropy-length error. -/
theorem c1_size_validation_code_bug :
    sizeParamsFromEntropyLen ((17 : Nat) : Int) = .ok ⟨12, 16, 4, 15, 16⟩ ∧
    sizeParamsFromEntropyLen ((33 : Nat) : Int) = .ok ⟨24, 32, 8, 255, 256⟩ ∧
    sizeParamsFromWordSetLen ((13 : Nat) : Int) = .ok ⟨12, 16, 4, 15, 16⟩ ∧
    sizeParamsFromWordSetLen ((25 : Nat) : Int) = .ok ⟨24, 32, 8, 255, 256⟩ ∧
    wordsFromEntropy trivLang (List.replicate 17 0) =
      .ok (List.replicate 12 []) ∧
    sizeParamsFromEntropyLen ((13 : Nat) : Int) = .ok ⟨12, 16, 4, 15, 16⟩ ∧
    sizeParamsFromEntropyLen ((12 : Nat) : Int) = .error .entropyInvalidLength :=
  ⟨by decide, by decide, by decide, by decide, by decide, by decide, by decide⟩

/-- C2 (code bug): a `Mnemonic` built by `FromString` from a raw string
that is not normalizer-fixed stores the raw string and derives the seed
from the raw string: decoding the stored string still reproduces the
entropy, but re-encoding the entropy yields the normalized string,
which differs from the stored one, and the seed's KDF password bytes
are those of the raw string, not of the normalized string. -/
theorem c2_fromString_code_bug :
    (FromString nf0 tinyLang raw0 []).map Mnemonic.str = .ok raw0 ∧
    (FromString nf0 tinyLang raw0 []).map Mnemonic.entropy =
      .ok (List.replicate 16 0) ∧
    (FromString nf0 tinyLang raw0 []).map Mnemonic.seed =
      .ok (seedFromMnemonicString raw0 []) ∧
    (FromString nf0 tinyLang raw0 []).map
      (fun m => compileMnemonic nf0 m.words) = .ok low0 ∧
    raw0 ≠ low0 ∧
    normalizeMnemonicString nf0 raw0 = low0 ∧
    strBytes raw0 ≠ strBytes (normalizeMnemonicString nf0 raw0) :=
  ⟨by decide, by decide,
    by
      have hdec : entropyFromWords tinyLang (parseRawMnemonic nf0 raw0) =
          .ok (List.replicate 16 0) := by decide
      unfold FromString
      rw [hdec]
      show Except.map Mnemonic.seed (Except.ok
        ⟨List.replicate 16 0, tinyLang, raw0, parseRawMnemonic nf0 raw0,
          seedFromMnemonicString raw0 []⟩) =
        Except.ok (seedFromMnemonicString raw0 [])
      rw [except_map_ok],
    by decide, by decide, by decide, by decide⟩
